import Mathlib

/-!
Verification of the dynamic property-path resolution engine of
`src/Sample-App/app/Services/Utilities.ts` (methods `getValue`, `setValue`
and `getFunction` of class `Utilities`).

The object graph handled by these methods is modelled as a tagged union
`Value` (null/undefined, boolean, number, string, callable, mapping), the
representation the spec's design notes prescribe for a statically-typed
target.  JavaScript peculiarities that the code relies on are modelled
explicitly:

* truthiness (`!object`, `if (object[property])`) via `truthy`;
* loose equality to null (`object == null`), which identifies `null` and
  `undefined`, via the single constructor `Value.vnull` and `Value.isNull`;
* property access `object[key]` on a non-mapping value yields
  `undefined` (modelled `Value.vnull`); the model gives scalars and
  callables no own properties;
* property assignment `object[key] = v` on a non-mapping, non-null value
  is silently ignored (the source is compiled without strict mode), while
  property access or assignment on `null`/`undefined` raises a
  `TypeError`; `setValue` therefore returns an `Option`, with `none`
  marking a raised `TypeError`.

`setValue` mutates the caller's graph in place; since the modelled graphs
are trees, the in-place mutation is modelled as a pure function returning
the updated graph (the spec's `set_copy`).
-/

namespace UtilitiesModel

/-- Body language for callable values stored in a graph: enough to express
the spec's scenario callables (`readThis p` is a callable returning
`this.p`; `constNull` returns null). -/
inductive FnBody where
  | readThis : String → FnBody
  | constNull : FnBody

/-- A JavaScript object graph value: null/undefined, scalar, callable, or
a mapping from string keys to further values (insertion-ordered
association list, first occurrence wins, matching JS object key lookup). -/
inductive Value where
  | vnull : Value
  | vbool : Bool → Value
  | vnum : Int → Value
  | vstr : String → Value
  | vfun : FnBody → Value
  | vobj : List (String × Value) → Value

/-- JavaScript truthiness of a graph value (`!v` is `!truthy v`):
null/undefined, `false`, `0` and `""` are falsy; functions and objects are
truthy. -/
def truthy : Value → Bool
  | .vnull => false
  | .vbool b => b
  | .vnum n => n != 0
  | .vstr s => s != ""
  | .vfun _ => true
  | .vobj _ => true

/-- JavaScript loose equality to null (`v == null`), true exactly for
null/undefined. -/
def Value.isNull : Value → Bool
  | .vnull => true
  | _ => false

/-- Test for the mapping variant. -/
def Value.isObj : Value → Bool
  | .vobj _ => true
  | _ => false

/-- Test for a non-mapping, non-callable value (a scalar in the spec's
data model; includes null). -/
def Value.isScalar : Value → Bool
  | .vobj _ => false
  | .vfun _ => false
  | _ => true

/-- First binding of `key` in an association list (JS objects have unique
keys; lookup returns the first binding). -/
def lookupField : List (String × Value) → String → Option Value
  | [], _ => none
  | (k, v) :: fs, key => if k = key then some v else lookupField fs key

/-- Property read `object[key]`: a mapping yields its stored value (or
`undefined` when absent); any other value yields `undefined`.  Both
`undefined` outcomes are modelled as `Value.vnull`. -/
def getProp (object : Value) (key : String) : Value :=
  match object with
  | .vobj fs => (lookupField fs key).getD .vnull
  | _ => .vnull

/-- Update the binding of `key` in an association list: an existing key
keeps its position (JS objects preserve insertion order on update), a new
key is appended. -/
def setField : List (String × Value) → String → Value → List (String × Value)
  | [], key, v => [(key, v)]
  | (k, w) :: fs, key, v =>
      if k = key then (key, v) :: fs else (k, w) :: setField fs key v

/-- Property write `object[key] = v` on a value that is not
null/undefined: mappings are updated, writes to scalars and callables are
silently ignored (non-strict mode). -/
def setProp (object : Value) (key : String) (v : Value) : Value :=
  match object with
  | .vobj fs => .vobj (setField fs key v)
  | other => other

/-- JavaScript `propertyString.split(".")` over the character list: split
at every dot, keeping empty segments (`"".split "."` is `[""]`). -/
def splitDots : List Char → List (List Char)
  | [] => [[]]
  | c :: rest =>
      match splitDots rest with
      | t :: ts => if c = '.' then [] :: t :: ts else (c :: t) :: ts
      | [] => [[]]

/-- Token list of a property string, as produced by
`propertyString.split(".")` in `getValue` (line 196) and `setValue`
(line 263). -/
def tokens (s : String) : List String :=
  (splitDots s.data).map String.mk

/-- Rejoin tokens with dots (inverse of `tokens`). -/
def joinDots : List String → String
  | [] => ""
  | [t] => t
  | t :: ts => t ++ "." ++ joinDots ts

/-- The descent loop of `getValue` (source lines 199 to 210): follow one
token at a time, bailing out with null as soon as the value reached is
null/undefined (`object == null`). -/
def getStep : Value → List String → Value
  | current, [] => current
  | current, p :: rest =>
      let next := getProp current p
      if next.isNull then .vnull else getStep next rest

/-- Unguarded descent: follow one token at a time with plain property
reads.  Since property reads on null yield null in this model, `walk`
agrees with the bailing loop `getStep` (proved below). -/
def walk : Value → List String → Value
  | current, [] => current
  | current, p :: rest => walk (getProp current p) rest

/-- Utilities.getValue (source lines 176 to 214): null for a falsy root
or an empty property string; the exact-key fast path (lines 191 to 193)
fires when the root holds a truthy value at the full property string;
otherwise tokenize on dots and descend. -/
def getValue (object : Value) (propertyString : String) : Value :=
  if truthy object = false then .vnull
  else if propertyString = "" then .vnull
  else if truthy (getProp object propertyString) = true then
    getProp object propertyString
  else getStep object (tokens propertyString)

/-- The descent loop of `setValue` (source lines 266 to 293), returning
the updated subtree, or `none` when the JavaScript original raises a
`TypeError`.  At the last token the value is assigned (line 272).  At an
earlier token: a truthy child is descended into (line 280); otherwise with
`instantiateObjects` a fresh empty mapping is stored and descended into
(lines 285 to 286), and without it the loop returns leaving the graph
untouched (line 290).  When the current value is not a mapping, the
store of the fresh mapping is silently ignored and its read-back yields
`undefined`, so the access at the following token raises: `none`. -/
def setGo : Value → List String → Value → Bool → Option Value
  | current, [], _, _ => some current
  | current, [p], v, _ => some (setProp current p v)
  | current, p :: q :: rest, v, inst =>
      match current with
      | .vobj fs =>
          if truthy (getProp (.vobj fs) p) = true then
            Option.map (fun updated => setProp (.vobj fs) p updated)
              (setGo (getProp (.vobj fs) p) (q :: rest) v inst)
          else if inst = true then
            Option.map (fun updated => setProp (.vobj fs) p updated)
              (setGo (.vobj []) (q :: rest) v inst)
          else some (.vobj fs)
      | other => if inst = true then none else some other

/-- Utilities.setValue (source lines 244 to 294) as a pure function on
the modelled graph: `some` of the updated graph, `none` when the original
raises a `TypeError`.  A falsy root or empty property string is a no-op
(lines 249 to 255); `instantiateObjects` defaults to true (line 258). -/
def setValue (object : Value) (propertyString : String) (v : Value)
    (instantiateObjects : Bool := true) : Option Value :=
  if truthy object = false then some object
  else if propertyString = "" then some object
  else setGo object (tokens propertyString) v instantiateObjects

/-- Structural success condition for the write descent of `setValue`: at
every non-final token the current value is a mapping whose child at that
token is either truthy (and recursively writable) or falsy with
`instantiateObjects` set (so a fresh mapping is created); at the final
token the current value is a mapping (so the assignment lands).  Under
this condition `setValue` performs the full write (proved below). -/
def canSet : Value → List String → Bool → Bool
  | _, [], _ => true
  | current, [_], _ => current.isObj
  | current, p :: q :: rest, inst =>
      match current with
      | .vobj fs =>
          if truthy (getProp (.vobj fs) p) = true then
            canSet (getProp (.vobj fs) p) (q :: rest) inst
          else inst && canSet (Value.vobj []) (q :: rest) inst
      | _ => false

/-- Result of Utilities.getFunction: null (falsy lookup), the raw looked
up value returned unbound, or a callable bound to a context value
(`_.bind(fn, context)` wrapping, source line 403). -/
inductive FnResult where
  | noFn : FnResult
  | raw : Value → FnResult
  | bound : FnBody → Value → FnResult

/-- Context property string of `getFunction` (source line 390):
`propertyString.substr(0, propertyString.lastIndexOf("."))`, the path up
to the last dot, computed here by dropping the final token. -/
def contextPath (s : String) : String :=
  joinDots (tokens s).dropLast

/-- Utilities.getFunction (source lines 354 to 408), for an explicitly
supplied scope (the string-only overload merely substitutes the ambient
window object as the scope, line 368; the spec directs modelling that
default scope as an injected value).  The lookup is delegated to
`getValue` (line 377); a falsy result returns null (line 380).  With
`inferContext` (default true, line 362): a dotted path binds to the value
at the path before the last dot, an undotted path binds to the scope
itself (lines 386 to 399); the wrapping `_.bind` raises a `TypeError`
when the truthy looked-up value is not callable, modelled `none`.
Without `inferContext` the looked-up value is returned as is. -/
def getFunction (scope : Value) (propertyString : String)
    (inferContext : Bool := true) : Option FnResult :=
  let fn := getValue scope propertyString
  if truthy fn = false then some .noFn
  else if inferContext = true then
    match fn with
    | .vfun b =>
        let context :=
          if propertyString.data.contains '.' then
            getValue scope (contextPath propertyString)
          else scope
        some (.bound b context)
    | _ => none
  else some (.raw fn)

/-- Invocation of a callable body with a given receiver (`this`). -/
def callWith : FnBody → Value → Value
  | .readThis prop, receiver => getProp receiver prop
  | .constNull, _ => .vnull

/-- Invocation of a `getFunction` result with no explicit receiver: a
bound callable runs with its captured context; a raw callable runs with
the ambient global object as `this` (non-strict mode); invoking null or a
non-callable raises, modelled `none`. -/
def invokeResult : FnResult → Value → Option Value
  | .noFn, _ => none
  | .raw (.vfun b), ambient => some (callWith b ambient)
  | .raw _, _ => none
  | .bound b ctx, _ => some (callWith b ctx)

/-- The inner mapping of the spec's function-resolution scenario:
`{ fn: <callable returning this.x>, x: 5 }`. -/
def demoSub : Value :=
  Value.vobj [("fn", Value.vfun (FnBody.readThis "x")), ("x", Value.vnum 5)]

/-- The root of the spec's function-resolution scenario:
`{ ns: { sub: { fn: <callable returning this.x>, x: 5 } } }`. -/
def demoRoot : Value :=
  Value.vobj [("ns", Value.vobj [("sub", demoSub)])]

end UtilitiesModel

namespace UtilitiesModel

/-! Basic lemmas about truthiness and property reads. -/

theorem isObj_of_truthy_getProp {c : Value} {k : String}
    (h : truthy (getProp c k) = true) : c.isObj = true := by
  cases c <;> simp [getProp, truthy, Value.isObj] at h ⊢

theorem getProp_of_not_obj {c : Value} (h : c.isObj = false) (k : String) :
    getProp c k = Value.vnull := by
  cases c <;> simp [Value.isObj] at h ⊢ <;> rfl

theorem truthy_of_isObj {c : Value} (h : c.isObj = true) : truthy c = true := by
  cases c <;> simp [Value.isObj, truthy] at h ⊢

theorem not_obj_of_isScalar {c : Value} (h : c.isScalar = true) :
    c.isObj = false := by
  cases c <;> simp [Value.isScalar, Value.isObj] at h ⊢

theorem not_isNull_of_truthy {c : Value} (h : truthy c = true) :
    c.isNull = false := by
  cases c <;> simp [truthy, Value.isNull] at h ⊢

theorem isNull_iff {c : Value} : c.isNull = true ↔ c = Value.vnull := by
  cases c <;> simp [Value.isNull]

theorem not_truthy_of_isNull {c : Value} (h : c.isNull = true) :
    truthy c = false := by
  cases c <;> simp [Value.isNull, truthy] at h ⊢

/-! Lemmas about the descent loops. -/

theorem walk_nil (c : Value) : walk c [] = c := rfl

theorem walk_cons (c : Value) (p : String) (rest : List String) :
    walk c (p :: rest) = walk (getProp c p) rest := rfl

theorem walk_vnull (l : List String) : walk Value.vnull l = Value.vnull := by
  induction l with
  | nil => rfl
  | cons p rest ih => rw [walk_cons]; exact ih

theorem walk_of_not_obj {c : Value} (h : c.isObj = false) {l : List String}
    (hl : l ≠ []) : walk c l = Value.vnull := by
  cases l with
  | nil => exact absurd rfl hl
  | cons p rest => rw [walk_cons, getProp_of_not_obj h, walk_vnull]

theorem getStep_eq_walk : ∀ (l : List String) (c : Value), getStep c l = walk c l := by
  intro l
  induction l with
  | nil => intro c; rfl
  | cons p rest ih =>
      intro c
      show (if (getProp c p).isNull then Value.vnull else getStep (getProp c p) rest)
        = walk (getProp c p) rest
      by_cases h : (getProp c p).isNull = true
      · rw [if_pos h, isNull_iff.mp h, walk_vnull]
      · rw [if_neg (by simp [h]), ih]

theorem walk_append (c : Value) (l1 l2 : List String) :
    walk c (l1 ++ l2) = walk (walk c l1) l2 := by
  induction l1 generalizing c with
  | nil => rfl
  | cons p rest ih => rw [List.cons_append, walk_cons, walk_cons, ih]

theorem truthy_of_walk_cons {c : Value} {p : String} {rest : List String}
    (h : truthy (walk c (p :: rest)) = true) : truthy c = true := by
  by_cases hc : truthy c = true
  · exact hc
  · exfalso
    have hobj : c.isObj = false := by
      cases hov : c.isObj
      · rfl
      · exact absurd (truthy_of_isObj hov) hc
    rw [walk_of_not_obj hobj (by simp)] at h
    simp [truthy] at h

/-! Lemmas about association-list updates. -/

theorem lookupField_setField_self (fs : List (String × Value)) (k : String)
    (v : Value) : lookupField (setField fs k v) k = some v := by
  induction fs with
  | nil => simp [setField, lookupField]
  | cons kv fs ih =>
      obtain ⟨k0, v0⟩ := kv
      by_cases h : k0 = k
      · simp [setField, h, lookupField]
      · simp [setField, h, lookupField, ih]

theorem lookupField_setField_of_ne (fs : List (String × Value)) {k k2 : String}
    (h : k2 ≠ k) (v : Value) :
    lookupField (setField fs k v) k2 = lookupField fs k2 := by
  have hne : ¬(k = k2) := fun hh => h hh.symm
  induction fs with
  | nil => simp [setField, lookupField, hne]
  | cons kv fs ih =>
      obtain ⟨k0, v0⟩ := kv
      by_cases h0 : k0 = k
      · subst h0
        simp [setField, lookupField, hne]
      · simp [setField, h0, lookupField, ih]

theorem setField_of_lookup_eq {fs : List (String × Value)} {k : String}
    {v : Value} (h : lookupField fs k = some v) : setField fs k v = fs := by
  induction fs with
  | nil => simp [lookupField] at h
  | cons kv fs ih =>
      obtain ⟨k0, v0⟩ := kv
      by_cases h0 : k0 = k
      · subst h0
        simp [lookupField] at h
        simp [setField, h]
      · simp [lookupField, h0] at h
        simp [setField, h0, ih h]

theorem getProp_setProp_self (fs : List (String × Value)) (k : String)
    (v : Value) : getProp (setProp (Value.vobj fs) k v) k = v := by
  simp [setProp, getProp, lookupField_setField_self]

theorem getProp_setProp_of_ne (fs : List (String × Value)) {k k2 : String}
    (h : k2 ≠ k) (v : Value) :
    getProp (setProp (Value.vobj fs) k v) k2 = getProp (Value.vobj fs) k2 := by
  simp [setProp, getProp, lookupField_setField_of_ne fs h]

theorem lookupField_of_getProp {fs : List (String × Value)} {k : String}
    {v : Value} (h : getProp (Value.vobj fs) k = v) (hv : v.isNull = false) :
    lookupField fs k = some v := by
  cases hlk : lookupField fs k with
  | none => simp [getProp, hlk] at h; rw [← h] at hv; simp [Value.isNull] at hv
  | some w => simp [getProp, hlk] at h; rw [h]

theorem setProp_same {fs : List (String × Value)} {k : String} {v : Value}
    (h : getProp (Value.vobj fs) k = v) (hv : v.isNull = false) :
    setProp (Value.vobj fs) k v = Value.vobj fs := by
  simp [setProp, setField_of_lookup_eq (lookupField_of_getProp h hv)]

theorem setProp_of_not_obj {c : Value} (h : c.isObj = false) (k : String)
    (v : Value) : setProp c k v = c := by
  cases c <;> simp [Value.isObj] at h ⊢ <;> rfl

/-! Lemmas about the dot tokenizer. -/

theorem splitDots_ne_nil (cs : List Char) : splitDots cs ≠ [] := by
  cases cs with
  | nil => simp [splitDots]
  | cons c rest =>
      show (match splitDots rest with
        | t :: ts => if c = '.' then [] :: t :: ts else (c :: t) :: ts
        | [] => [[]]) ≠ []
      cases splitDots rest with
      | nil => simp
      | cons t ts => by_cases h : c = '.' <;> simp [h]

theorem tokens_ne_nil (s : String) : tokens s ≠ [] := by
  unfold tokens
  simp [splitDots_ne_nil]

theorem tokens_empty : tokens "" = [""] := rfl

theorem not_dot_of_mem_splitDots :
    ∀ (cs : List Char) (t : List Char), t ∈ splitDots cs → '.' ∉ t := by
  intro cs
  induction cs with
  | nil =>
      intro t ht
      simp [splitDots] at ht
      simp [ht]
  | cons c rest ih =>
      intro t ht
      cases hs : splitDots rest with
      | nil => exact absurd hs (splitDots_ne_nil rest)
      | cons t0 ts =>
          by_cases hc : c = '.'
          · simp [splitDots, hs, hc] at ht
            rcases ht with h | h | h
            · simp [h]
            · exact ih t (by rw [hs]; exact h ▸ List.mem_cons_self t0 ts)
            · exact ih t (by rw [hs]; exact List.mem_cons_of_mem t0 h)
          · simp [splitDots, hs, hc] at ht
            rcases ht with h | h
            · subst h
              intro hmem
              rcases List.mem_cons.mp hmem with h1 | h1
              · exact hc h1.symm
              · exact ih t0 (by rw [hs]; exact List.mem_cons_self t0 ts) h1
            · exact ih t (by rw [hs]; exact List.mem_cons_of_mem t0 h)

theorem splitDots_length_one :
    ∀ (cs : List Char), (splitDots cs).length = 1 → splitDots cs = [cs] := by
  intro cs
  induction cs with
  | nil => intro _; rfl
  | cons c rest ih =>
      intro hlen
      cases hs : splitDots rest with
      | nil => exact absurd hs (splitDots_ne_nil rest)
      | cons t0 ts =>
          by_cases hc : c = '.'
          · rw [show splitDots (c :: rest) = [] :: t0 :: ts from by
              simp [splitDots, hs, hc]] at hlen
            simp at hlen
          · have hstep : splitDots (c :: rest) = (c :: t0) :: ts := by
              simp [splitDots, hs, hc]
            rw [hstep] at hlen ⊢
            simp at hlen
            subst hlen
            have h2 := ih (by rw [hs]; rfl)
            rw [hs] at h2
            have ht0 : t0 = rest := by simpa using h2
            rw [ht0]

theorem dot_mem_of_length_ge_two {cs : List Char}
    (h : 2 ≤ (splitDots cs).length) : '.' ∈ cs := by
  by_contra hmem
  induction cs with
  | nil => simp [splitDots] at h
  | cons c rest ih =>
      cases hs : splitDots rest with
      | nil => exact absurd hs (splitDots_ne_nil rest)
      | cons t0 ts =>
          by_cases hc : c = '.'
          · exact hmem (by simp [hc])
          · simp [splitDots, hs, hc] at h
            have hrest : ¬('.' ∈ rest) := fun hr => hmem (List.mem_cons_of_mem c hr)
            exact ih (by rw [hs]; simpa using h) hrest

theorem tokens_singleton {s : String} (h : (tokens s).length = 1) :
    tokens s = [s] := by
  unfold tokens at h ⊢
  rw [splitDots_length_one s.data (by simpa using h)]
  rfl

theorem ne_of_mem_tokens {s : String} {t : String}
    (hlen : 2 ≤ (tokens s).length) (hmem : t ∈ tokens s) : t ≠ s := by
  intro heq
  subst heq
  unfold tokens at hlen hmem
  obtain ⟨cs, hcs, hmk⟩ := List.mem_map.mp hmem
  have hdot : '.' ∈ t.data := dot_mem_of_length_ge_two (by simpa using hlen)
  have : t.data = cs := by rw [← hmk]
  exact not_dot_of_mem_splitDots t.data cs hcs (this ▸ hdot)

example : tokens "a.b" = ["a", "b"] := by decide
example : tokens "a.b.c" = ["a", "b", "c"] := rfl
example : tokens "" = [""] := rfl
example : tokens "a..b" = ["a", "", "b"] := rfl
example : getValue (Value.vobj [("a", Value.vobj [("b", Value.vnum 2)])]) "a.b"
    = Value.vnum 2 := rfl
example : getValue (Value.vobj [("a", Value.vobj [("b", Value.vnum 2)])]) "a.b.c"
    = Value.vnull := rfl
example : getValue (Value.vobj [("a.b", Value.vnum 5)]) "a.b" = Value.vnum 5 := rfl
example : getValue (Value.vobj [("a.b", Value.vnum 0)]) "a.b" = Value.vnull := rfl
example : setValue (Value.vobj []) "a.b.c" (Value.vnum 1) true
    = some (Value.vobj [("a", Value.vobj [("b", Value.vobj [("c", Value.vnum 1)])])]) := rfl
example : setValue (Value.vobj [("a", Value.vnum 5)]) "a.b.c" (Value.vnum 1) true
    = Option.none := rfl
example : setValue (Value.vobj [("a", Value.vnum 5)]) "a.b" (Value.vnum 1) true
    = some (Value.vobj [("a", Value.vnum 5)]) := rfl
example : setValue (Value.vobj [("a", Value.vnum 5)]) "a.b.c" (Value.vnum 1) false
    = some (Value.vobj [("a", Value.vnum 5)]) := rfl
example : getValue demoRoot "ns.sub.fn" = Value.vfun (FnBody.readThis "x") := rfl
example : contextPath "ns.sub.fn" = "ns.sub" := rfl
example : getFunction demoRoot "ns.sub.fn"
    = some (FnResult.bound (FnBody.readThis "x") demoSub) := rfl
example : getFunction demoRoot "ns.sub.fn" false
    = some (FnResult.raw (Value.vfun (FnBody.readThis "x"))) := rfl
example : invokeResult (FnResult.bound (FnBody.readThis "x") demoSub) (Value.vobj [])
    = some (Value.vnum 5) := rfl

/-! Main lemmas about the write descent. -/

theorem setGo_not_obj_noInst {c : Value} (h : c.isObj = false)
    (p q : String) (rest : List String) (v : Value) :
    setGo c (p :: q :: rest) v false = some c := by
  cases c with
  | vobj fs => simp [Value.isObj] at h
  | vnull => rfl
  | vbool b => rfl
  | vnum n => rfl
  | vstr s => rfl
  | vfun b => rfl

theorem setGo_missing :
    ∀ (pre : List String) (c : Value) (t : String) (rest : List String) (v : Value),
      rest ≠ [] → getProp (walk c pre) t = Value.vnull →
      setGo c (pre ++ t :: rest) v false = some c := by
  intro pre
  induction pre with
  | nil =>
      intro c t rest v hrest hmiss
      rw [walk_nil] at hmiss
      cases rest with
      | nil => exact absurd rfl hrest
      | cons r rs =>
          cases c with
          | vobj fs =>
              show setGo (Value.vobj fs) (t :: r :: rs) v false = some (Value.vobj fs)
              rw [setGo]
              rw [hmiss]
              simp [truthy]
          | vnull => rfl
          | vbool b => rfl
          | vnum n => rfl
          | vstr s => rfl
          | vfun b => rfl
  | cons q pre2 ih =>
      intro c t rest v hrest hmiss
      rw [walk_cons] at hmiss
      have hsplit : (q :: pre2) ++ t :: rest = q :: (pre2 ++ t :: rest) := rfl
      rw [hsplit]
      cases hx : pre2 ++ t :: rest with
      | nil => exact absurd hx (by simp)
      | cons x xs =>
          cases c with
          | vobj fs =>
              rw [setGo]
              by_cases hch : truthy (getProp (Value.vobj fs) q) = true
              · rw [if_pos hch]
                rw [← hx, ih (getProp (Value.vobj fs) q) t rest v hrest hmiss]
                simp [Option.map]
                exact setProp_same rfl (not_isNull_of_truthy hch)
              · rw [if_neg hch]
                simp
          | vnull => rfl
          | vbool b => rfl
          | vnum n => rfl
          | vstr s => rfl
          | vfun b => rfl

theorem setGo_scalar_unchanged :
    ∀ (pre : List String) (c : Value) (t : String) (rest : List String)
      (v : Value) (inst : Bool),
      rest ≠ [] → (inst = true → rest.length = 1) →
      (walk c (pre ++ [t])).isScalar = true →
      truthy (walk c (pre ++ [t])) = true →
      setGo c (pre ++ t :: rest) v inst = some c := by
  intro pre
  induction pre with
  | nil =>
      intro c t rest v inst hrest hinst hscal htr
      rw [List.nil_append, walk_cons, walk_nil] at hscal htr
      have hobj : c.isObj = true := isObj_of_truthy_getProp htr
      cases c with
      | vobj fs =>
          cases rest with
          | nil => exact absurd rfl hrest
          | cons r rs =>
              show setGo (Value.vobj fs) (t :: r :: rs) v inst = some (Value.vobj fs)
              rw [setGo, if_pos htr]
              have hinner : setGo (getProp (Value.vobj fs) t) (r :: rs) v inst
                  = some (getProp (Value.vobj fs) t) := by
                cases rs with
                | nil =>
                    show some (setProp (getProp (Value.vobj fs) t) r v) = _
                    rw [setProp_of_not_obj (not_obj_of_isScalar hscal)]
                | cons r2 rs2 =>
                    cases hi : inst with
                    | true => simpa using hinst (by simp [hi])
                    | false =>
                        exact setGo_not_obj_noInst (not_obj_of_isScalar hscal) r r2 rs2 v
              rw [hinner]
              simp [Option.map]
              exact setProp_same rfl (not_isNull_of_truthy htr)
      | vnull => simp [Value.isObj] at hobj
      | vbool b => simp [Value.isObj] at hobj
      | vnum n => simp [Value.isObj] at hobj
      | vstr s => simp [Value.isObj] at hobj
      | vfun b => simp [Value.isObj] at hobj
  | cons q pre2 ih =>
      intro c t rest v inst hrest hinst hscal htr
      rw [List.cons_append, walk_cons] at hscal htr
      have hq : truthy (getProp c q) = true := by
        cases hpt : pre2 ++ [t] with
        | nil => exact absurd hpt (by simp)
        | cons x xs => rw [hpt] at htr; exact truthy_of_walk_cons htr
      have hobj : c.isObj = true := isObj_of_truthy_getProp hq
      cases c with
      | vobj fs =>
          have hsplit : (q :: pre2) ++ t :: rest = q :: (pre2 ++ t :: rest) := rfl
          rw [hsplit]
          cases hx : pre2 ++ t :: rest with
          | nil => exact absurd hx (by simp)
          | cons x xs =>
              rw [setGo, if_pos hq, ← hx]
              rw [ih (getProp (Value.vobj fs) q) t rest v inst hrest hinst hscal htr]
              simp [Option.map]
              exact setProp_same rfl (not_isNull_of_truthy hq)
      | vnull => simp [Value.isObj] at hobj
      | vbool b => simp [Value.isObj] at hobj
      | vnum n => simp [Value.isObj] at hobj
      | vstr s => simp [Value.isObj] at hobj
      | vfun b => simp [Value.isObj] at hobj

theorem setGo_canSet :
    ∀ (rest : List String) (t : String) (c : Value) (v : Value) (inst : Bool),
      canSet c (t :: rest) inst = true →
      ∃ out, setGo c (t :: rest) v inst = some out ∧
        walk out (t :: rest) = v ∧ out.isObj = true ∧
        ∀ k, k ≠ t → getProp out k = getProp c k := by
  intro rest
  induction rest with
  | nil =>
      intro t c v inst hcan
      have hobj : c.isObj = true := hcan
      cases c with
      | vobj fs =>
          refine ⟨setProp (Value.vobj fs) t v, rfl, ?_, ?_, ?_⟩
          · rw [walk_cons, getProp_setProp_self, walk_nil]
          · simp [setProp, Value.isObj]
          · intro k hk
            exact getProp_setProp_of_ne fs hk v
      | vnull => simp [Value.isObj] at hobj
      | vbool b => simp [Value.isObj] at hobj
      | vnum n => simp [Value.isObj] at hobj
      | vstr s => simp [Value.isObj] at hobj
      | vfun b => simp [Value.isObj] at hobj
  | cons q rs ih =>
      intro t c v inst hcan
      cases c with
      | vobj fs =>
          by_cases hch : truthy (getProp (Value.vobj fs) t) = true
          · have hcan2 : canSet (getProp (Value.vobj fs) t) (q :: rs) inst = true := by
              rw [canSet, if_pos hch] at hcan
              exact hcan
            obtain ⟨out2, hgo2, hwalk2, hobj2, hframe2⟩ :=
              ih q (getProp (Value.vobj fs) t) v inst hcan2
            refine ⟨setProp (Value.vobj fs) t out2, ?_, ?_, ?_, ?_⟩
            · rw [setGo, if_pos hch, hgo2]
              rfl
            · rw [walk_cons, getProp_setProp_self, hwalk2]
            · simp [setProp, Value.isObj]
            · intro k hk
              exact getProp_setProp_of_ne fs hk out2
          · have hcan2 : inst = true ∧ canSet (Value.vobj []) (q :: rs) inst = true := by
              rw [canSet, if_neg hch] at hcan
              simpa using hcan
            obtain ⟨out2, hgo2, hwalk2, hobj2, hframe2⟩ :=
              ih q (Value.vobj []) v inst hcan2.2
            refine ⟨setProp (Value.vobj fs) t out2, ?_, ?_, ?_, ?_⟩
            · rw [setGo, if_neg hch, if_pos hcan2.1, hgo2]
              rfl
            · rw [walk_cons, getProp_setProp_self, hwalk2]
            · simp [setProp, Value.isObj]
            · intro k hk
              exact getProp_setProp_of_ne fs hk out2
      | vnull => simp [canSet] at hcan
      | vbool b => simp [canSet] at hcan
      | vnum n => simp [canSet] at hcan
      | vstr s => simp [canSet] at hcan
      | vfun b => simp [canSet] at hcan

/-! Claim theorems. -/

/-- C2 counterexample: a root whose exact key `"a.b"` stores the falsy
value `0` defeats the fast path — `getValue` does not return the stored
value but falls through to tokenized descent and yields null, because the
fast path guard (source line 191) tests truthiness of the stored value,
not key presence. -/
theorem getValue_fastPath_falsy_counterexample :
    lookupField [("a.b", Value.vnum 0)] "a.b" = some (Value.vnum 0) ∧
    getValue (Value.vobj [("a.b", Value.vnum 0)]) "a.b" = Value.vnull ∧
    Value.vnull ≠ Value.vnum 0 :=
  ⟨rfl, rfl, by simp⟩

/-- C2 (amended): for every truthy root and non-empty path at which the
root stores a truthy value under the exact full path string (dotted key
names included), `getValue` returns that stored value immediately, taking
precedence over tokenized descent. -/
theorem getValue_fastPath (root : Value) (p : String)
    (h1 : truthy root = true) (h2 : p ≠ "")
    (h3 : truthy (getProp root p) = true) :
    getValue root p = getProp root p := by
  simp [getValue, h1, h2, h3]

/-- C2 witness: the spec scenario — key literally named `"a.b"` storing
`5` is read back by `getValue` via the fast path. -/
theorem getValue_fastPath_witness :
    getValue (Value.vobj [("a.b", Value.vnum 5)]) "a.b" = Value.vnum 5 :=
  (getValue_fastPath (Value.vobj [("a.b", Value.vnum 5)]) "a.b" rfl
    (by decide) rfl).trans rfl

/-- C3: `setValue` with `instantiateObjects = false` is a silent no-op
whenever some non-final token of the path is missing (resolves to
null/undefined) along the read descent: the graph is returned unchanged
and no error is raised. -/
theorem setValue_noop_of_missing (root : Value) (p : String) (v : Value)
    (pre : List String) (t : String) (rest : List String)
    (hdec : tokens p = pre ++ t :: rest) (hrest : rest ≠ [])
    (hmiss : getProp (walk root pre) t = Value.vnull) :
    setValue root p v false = some root := by
  have hp : p ≠ "" := by
    intro hp0
    subst hp0
    rw [tokens_empty] at hdec
    have hlen := congrArg List.length hdec
    simp at hlen
    have hrl : rest.length = 0 := by omega
    exact hrest (List.length_eq_zero.mp hrl)
  by_cases hr : truthy root = false
  · simp [setValue, hr]
  · simp [setValue, hr, hp]
    rw [hdec]
    exact setGo_missing pre root t rest v hrest hmiss

/-- C3 witness: writing `"a.b"` into an empty mapping without
instantiation leaves it unchanged. -/
theorem setValue_noop_of_missing_witness :
    setValue (Value.vobj []) "a.b" (Value.vnum 1) false = some (Value.vobj []) :=
  setValue_noop_of_missing (Value.vobj []) "a.b" (Value.vnum 1) [] "a" ["b"]
    rfl (by simp) rfl

/-- C4: `getValue` degrades to null on a null root (source line 181), on
an empty property string (line 185), and — once tokenized descent runs,
i.e. the exact-key fast path did not fire — whenever the value reached
after some non-final token is null/undefined, without descending further
(lines 207 to 209). -/
theorem getValue_null_degradation :
    (∀ p, getValue Value.vnull p = Value.vnull) ∧
    (∀ root, getValue root "" = Value.vnull) ∧
    (∀ (root : Value) (p : String) (pre : List String) (t : String)
        (rest : List String),
        truthy (getProp root p) = false →
        tokens p = pre ++ t :: rest → rest ≠ [] →
        walk root (pre ++ [t]) = Value.vnull →
        getValue root p = Value.vnull) := by
  refine ⟨fun p => rfl, ?_, ?_⟩
  · intro root
    by_cases hr : truthy root = false
    · simp [getValue, hr]
    · simp [getValue, hr]
  · intro root p pre t rest hfast hdec hrest hnull
    by_cases hr : truthy root = false
    · simp [getValue, hr]
    · by_cases hp : p = ""
      · simp [getValue, hp]
      · simp [getValue, hr, hp, hfast]
        rw [getStep_eq_walk, hdec,
          show pre ++ t :: rest = (pre ++ [t]) ++ rest by simp,
          walk_append, hnull, walk_vnull]

/-- C4 witness: a root whose `"a"` child is null makes `getValue` of
`"a.b"` short-circuit to null. -/
theorem getValue_null_degradation_witness :
    getValue (Value.vobj [("a", Value.vnull)]) "a.b" = Value.vnull :=
  getValue_null_degradation.2.2 (Value.vobj [("a", Value.vnull)]) "a.b"
    [] "a" ["b"] rfl rfl (by simp) rfl

/-- C5: `setValue` on an empty mapping with path `"a.b.c"`, value `1` and
instantiation on materializes every missing intermediate as a fresh
mapping and assigns the value at the final token, yielding
`{ a: { b: { c: 1 } } }`. -/
theorem setValue_materializes :
    setValue (Value.vobj []) "a.b.c" (Value.vnum 1) true =
      some (Value.vobj [("a", Value.vobj [("b", Value.vobj [("c", Value.vnum 1)])])]) :=
  rfl

/-- C7: the get/set fast-path asymmetry — for a root holding a key
literally named `"a.b"`, `getValue` reads that key directly via the fast
path, while `setValue` with the same path string does not write to it: it
tokenizes on dots and writes the nested location `root["a"]["b"]`,
creating the intermediate mapping and leaving the literal dotted key
untouched. -/
theorem getValue_setValue_fastPath_asymmetry :
    getValue (Value.vobj [("a.b", Value.vnum 5)]) "a.b" = Value.vnum 5 ∧
    setValue (Value.vobj [("a.b", Value.vnum 5)]) "a.b" (Value.vnum 7) true =
      some (Value.vobj [("a.b", Value.vnum 5), ("a", Value.vobj [("b", Value.vnum 7)])]) :=
  ⟨rfl, rfl⟩

/-- C8: when tokenized descent runs (the fast path did not fire) and the
value reached after some non-final token is a non-null, non-mapping
scalar, `getValue` treats it like a null node: the traversal stops and
null is returned, with no error — the model's `getValue` is a total
function, mirroring that the source checks `object == null` after every
step and never dereferences null. -/
theorem getValue_scalar_descent (root : Value) (p : String)
    (pre : List String) (t : String) (rest : List String) (s : Value)
    (hfast : truthy (getProp root p) = false)
    (hdec : tokens p = pre ++ t :: rest) (hrest : rest ≠ [])
    (hwalk : walk root (pre ++ [t]) = s)
    (hscal : s.isScalar = true) (_hnn : s.isNull = false) :
    getValue root p = Value.vnull := by
  by_cases hr : truthy root = false
  · simp [getValue, hr]
  · by_cases hp : p = ""
    · simp [getValue, hp]
    · simp [getValue, hr, hp, hfast]
      rw [getStep_eq_walk, hdec,
        show pre ++ t :: rest = (pre ++ [t]) ++ rest by simp,
        walk_append, hwalk]
      cases rest with
      | nil => exact absurd rfl hrest
      | cons r rs =>
          rw [walk_cons, getProp_of_not_obj (not_obj_of_isScalar hscal), walk_vnull]

/-- C8 witness: the spec scenario `get({a:{b:2}}, "a.b.c")` returns null
(descent past the scalar `2`). -/
theorem getValue_scalar_descent_witness :
    getValue (Value.vobj [("a", Value.vobj [("b", Value.vnum 2)])]) "a.b.c" =
      Value.vnull :=
  getValue_scalar_descent (Value.vobj [("a", Value.vobj [("b", Value.vnum 2)])])
    "a.b.c" ["a"] "b" ["c"] (Value.vnum 2) rfl rfl (by simp) rfl rfl rfl

/-- C1 counterexample: the stated precondition ("every intermediate
segment already exists or instantiate=true") is satisfied in both parts
(instantiate is true), yet the round-trip fails.  Part one: a root with a
truthy value under the literal dotted key `"a.b"` — set writes the nested
`root["a"]["b"]`, but get's fast path then returns the untouched literal
key's old value `7`, not the written `1`.  Part two: a root where the
intermediate segment `"a"` exists as the scalar `5` — set descends into
the scalar, the final assignment is silently ignored, and get returns
null, not the written `1`. -/
theorem setValue_getValue_roundtrip_counterexample :
    (setValue (Value.vobj [("a.b", Value.vnum 7)]) "a.b" (Value.vnum 1) true =
        some (Value.vobj [("a.b", Value.vnum 7), ("a", Value.vobj [("b", Value.vnum 1)])]) ∧
      getValue (Value.vobj [("a.b", Value.vnum 7), ("a", Value.vobj [("b", Value.vnum 1)])])
          "a.b" = Value.vnum 7 ∧
      Value.vnum 7 ≠ Value.vnum 1) ∧
    (setValue (Value.vobj [("a", Value.vnum 5)]) "a.b" (Value.vnum 1) true =
        some (Value.vobj [("a", Value.vnum 5)]) ∧
      getValue (Value.vobj [("a", Value.vnum 5)]) "a.b" = Value.vnull ∧
      Value.vnull ≠ Value.vnum 1) :=
  ⟨⟨rfl, rfl, by simp⟩, ⟨rfl, rfl, by simp⟩⟩

/-- C1 (amended): the round-trip `getValue (setValue root p v inst) p = v`
holds for a non-empty path whenever (a) the write descent succeeds
structurally — every non-final token lands on a mapping child that is
truthy, or falsy with instantiation on, and the final assignment lands on
a mapping (`canSet`) — and (b) for a dotted path, the root does not store
a truthy value under the literal full path string, which get's fast path
would return instead of the freshly written value. -/
theorem setValue_getValue_roundtrip (root : Value) (p : String) (v : Value)
    (inst : Bool) (hp : p ≠ "")
    (hcan : canSet root (tokens p) inst = true)
    (hfast : 2 ≤ (tokens p).length → truthy (getProp root p) = false) :
    ∃ out, setValue root p v inst = some out ∧ getValue out p = v := by
  obtain ⟨t, rest, htok⟩ : ∃ t rest, tokens p = t :: rest := by
    cases h : tokens p with
    | nil => exact absurd h (tokens_ne_nil p)
    | cons t rest => exact ⟨t, rest, rfl⟩
  rw [htok] at hcan
  obtain ⟨out, hgo, hwalk, hobj, hframe⟩ := setGo_canSet rest t root v inst hcan
  have hrobj : root.isObj = true := by
    cases rest with
    | nil => exact hcan
    | cons q rs =>
        cases root with
        | vobj fs => rfl
        | vnull => exact Bool.noConfusion hcan
        | vbool b => exact Bool.noConfusion hcan
        | vnum n => exact Bool.noConfusion hcan
        | vstr s => exact Bool.noConfusion hcan
        | vfun b => exact Bool.noConfusion hcan
  have hroot : truthy root = true := truthy_of_isObj hrobj
  refine ⟨out, ?_, ?_⟩
  · simp [setValue, hroot, hp]
    rw [htok]
    exact hgo
  · have hout : truthy out = true := truthy_of_isObj hobj
    cases rest with
    | nil =>
        have hp1 : tokens p = [p] := tokens_singleton (by rw [htok]; rfl)
        have htp : t = p := by
          have h12 := htok.symm.trans hp1
          injection h12
        subst htp
        have hgp : getProp out t = v := by
          have h13 := hwalk
          rw [walk_cons, walk_nil] at h13
          exact h13
        by_cases hv : truthy v = true
        · rw [getValue_fastPath out t hout hp (by rw [hgp]; exact hv), hgp]
        · simp [getValue, hout, hp, hgp, hv]
          rw [getStep_eq_walk, hp1, walk_cons, walk_nil, hgp]
    | cons q rs =>
        have hlen2 : 2 ≤ (tokens p).length := by
          rw [htok]
          simp
        have hfast2 : truthy (getProp root p) = false := hfast hlen2
        have hne : p ≠ t :=
          (ne_of_mem_tokens hlen2 (by rw [htok]; exact List.mem_cons_self t (q :: rs))).symm
        have hofp : getProp out p = getProp root p := hframe p hne
        have hfo : truthy (getProp out p) = false := by rw [hofp]; exact hfast2
        simp [getValue, hout, hp, hfo]
        rw [getStep_eq_walk, htok]
        exact hwalk

/-- C1 witness: writing `1` at `"a.b"` into an empty mapping with
instantiation and reading it back yields `1`. -/
theorem setValue_getValue_roundtrip_witness :
    ∃ out, setValue (Value.vobj []) "a.b" (Value.vnum 1) true = some out ∧
      getValue out "a.b" = Value.vnum 1 :=
  setValue_getValue_roundtrip (Value.vobj []) "a.b" (Value.vnum 1) true
    (by decide) rfl (fun _ => rfl)

/-- C10 counterexample: with instantiation on and a truthy scalar at a
segment earlier than second-to-last, `setValue` raises a `TypeError`
instead of completing: the instantiating store onto the scalar `5` is
silently ignored, its read-back yields undefined, and the access at the
following token dereferences undefined. -/
theorem setValue_scalar_raises_counterexample :
    setValue (Value.vobj [("a", Value.vnum 5)]) "a.b.c" (Value.vnum 1) true = none :=
  rfl

/-- C10 (amended): when a non-final token of the path resolves to a
truthy non-mapping scalar, `setValue` completes without raising and
leaves the graph entirely unchanged provided the scalar sits at the
second-to-last token (so only the final assignment lands on it and is
silently ignored) or instantiation is off (the descent bails at the
scalar's absent child); with instantiation on and the scalar earlier, the
original raises (see the counterexample). -/
theorem setValue_scalar_noop (root : Value) (p : String) (v : Value)
    (inst : Bool) (pre : List String) (t : String) (rest : List String)
    (hdec : tokens p = pre ++ t :: rest) (hrest : rest ≠ [])
    (hinst : inst = true → rest.length = 1)
    (hscal : (walk root (pre ++ [t])).isScalar = true)
    (htr : truthy (walk root (pre ++ [t])) = true) :
    setValue root p v inst = some root := by
  have hroot : truthy root = true := by
    cases hpt : pre ++ [t] with
    | nil => exact absurd hpt (by simp)
    | cons x xs =>
        rw [hpt] at htr
        exact truthy_of_walk_cons htr
  have hp : p ≠ "" := by
    intro hp0
    subst hp0
    rw [tokens_empty] at hdec
    have hlen := congrArg List.length hdec
    simp at hlen
    have hrl : rest.length = 0 := by omega
    exact hrest (List.length_eq_zero.mp hrl)
  simp [setValue, hroot, hp]
  rw [hdec]
  exact setGo_scalar_unchanged pre root t rest v inst hrest hinst hscal htr

/-- C10 witness: the claim's own example — `set({a:5}, "a.b", v)` with
instantiation on completes and leaves the graph unchanged. -/
theorem setValue_scalar_noop_witness :
    setValue (Value.vobj [("a", Value.vnum 5)]) "a.b" (Value.vnum 1) true =
      some (Value.vobj [("a", Value.vnum 5)]) :=
  setValue_scalar_noop (Value.vobj [("a", Value.vnum 5)]) "a.b" (Value.vnum 1)
    true [] "a" ["b"] rfl (by simp) (fun _ => rfl) rfl rfl

/-- C6: with context inference on (the default), a resolved callable at a
dotted path is bound to the value at the path before the last dot (the
owning object), and at an undotted path to the scope itself; in the
spec's scenario `root = { ns: { sub: { fn: <returns this.x>, x: 5 } } }`,
resolving `"ns.sub.fn"` and invoking the result with no explicit receiver
returns `5`, the context having been inferred as `ns.sub`. -/
theorem getFunction_inferContext :
    (∀ (scope : Value) (p : String) (b : FnBody),
        getValue scope p = Value.vfun b → '.' ∈ p.data →
        getFunction scope p true =
          some (FnResult.bound b (getValue scope (contextPath p)))) ∧
    (∀ (scope : Value) (p : String) (b : FnBody),
        getValue scope p = Value.vfun b → '.' ∉ p.data →
        getFunction scope p true = some (FnResult.bound b scope)) ∧
    (getFunction demoRoot "ns.sub.fn" =
        some (FnResult.bound (FnBody.readThis "x") demoSub) ∧
      invokeResult (FnResult.bound (FnBody.readThis "x") demoSub) (Value.vobj []) =
        some (Value.vnum 5)) := by
  refine ⟨?_, ?_, rfl, rfl⟩
  · intro scope p b hget hdot
    simp [getFunction, hget, truthy, hdot]
  · intro scope p b hget hdot
    simp [getFunction, hget, truthy, hdot]

/-- C6 witness: resolving `"ns.sub.fn"` in the scenario root binds the
callable to the value at the context path `"ns.sub"`. -/
theorem getFunction_inferContext_witness :
    getFunction demoRoot "ns.sub.fn" true =
      some (FnResult.bound (FnBody.readThis "x")
        (getValue demoRoot (contextPath "ns.sub.fn"))) :=
  getFunction_inferContext.1 demoRoot "ns.sub.fn" (FnBody.readThis "x") rfl
    (by decide)

/-- C9: with context inference off, `getFunction` returns exactly the raw
value found by `getValue`, unbound; in the spec's scenario, invoking that
raw callable with no explicit receiver runs with the ambient global
object as `this` (here an empty mapping) and yields null — it does not
read `x` from the owning object `ns.sub`. -/
theorem getFunction_raw :
    (∀ (scope : Value) (p : String) (b : FnBody),
        getValue scope p = Value.vfun b →
        getFunction scope p false = some (FnResult.raw (Value.vfun b))) ∧
    (getFunction demoRoot "ns.sub.fn" false =
        some (FnResult.raw (Value.vfun (FnBody.readThis "x"))) ∧
      invokeResult (FnResult.raw (Value.vfun (FnBody.readThis "x"))) (Value.vobj []) =
        some Value.vnull) := by
  refine ⟨?_, rfl, rfl⟩
  intro scope p b hget
  simp [getFunction, hget, truthy]

/-- C9 witness: the scenario instantiation of the raw-return property. -/
theorem getFunction_raw_witness :
    getFunction demoRoot "ns.sub.fn" false =
      some (FnResult.raw (Value.vfun (FnBody.readThis "x"))) :=
  getFunction_raw.1 demoRoot "ns.sub.fn" (FnBody.readThis "x") rfl

end UtilitiesModel
